import Mathlib

/-!
Verification of the `encdec` streaming encryption library.

This file gives a shallow embedding, in Lean 4, of the core of the
`encdec` repository (Go): the nonce counter (`crypto.go`), the parameter
record together with its normalization, marshalling and header parsing
(`params.go`), the key-derivation wrapper (`crypto.go`), and the chunked
streaming encryptor/decryptor (`stream.go`).  Byte strings are modelled
as `List Nat` with each byte `< 256`; Go's fixed-width casts appear as
explicit `% 2^w` operations.  The two external cryptographic primitives
(the ChaCha20-Poly1305 AEAD and Argon2id, both from `golang.org/x/crypto`)
are not code of this repository: the theorems take them as parameters
constrained exactly by their documented contracts, and concrete stand-in
instances satisfying those contracts are supplied for evaluation.
-/

deriving instance DecidableEq for Except

namespace Encdec

/-! ### Byte-level utilities -/

/-- Big-endian value of a byte string (`crypto.go` treats the nonce this way). -/
def bytesToNatBE (l : List Nat) : Nat :=
  l.foldl (fun a b => a * 256 + b) 0

/-- The `w`-byte big-endian encoding of `n % 256^w`. -/
def natToBytesBE : Nat → Nat → List Nat
  | 0, _ => []
  | w + 1, n => natToBytesBE w (n / 256) ++ [n % 256]

/-- All entries of a byte string are bytes. -/
def isBytes (l : List Nat) : Prop := ∀ b ∈ l, b < 256

instance (l : List Nat) : Decidable (isBytes l) := by
  unfold isBytes; infer_instance

/-! ### The nonce counter: `incNonce` from `crypto.go`

```go
func incNonce(nonce []byte) error {
    for i := len(nonce) - 1; i >= 0; i-- {
        nonce[i]++
        if nonce[i] != 0 {
            break
        }
        if i == 0 {
            return errors.New("chunk counter overflowed")
        }
    }
    return nil
}
```

The Go loop walks from the rightmost byte leftwards, incrementing (with
the `uint8` wrap) until a byte does not wrap; if the leftmost byte wraps
the counter overflowed.  `incNonceRev` processes the reversed byte list
(head = rightmost byte); the `[b]` case is the `i == 0` check.  The
returned `Bool` is `true` exactly when the Go function returns the
overflow error; the returned list is the final contents of the buffer
(on overflow the Go loop has zeroed every byte). -/
def incNonceRev : List Nat → List Nat × Bool
  | [] => ([], false)
  | [b] =>
    let b' := (b + 1) % 256
    if b' ≠ 0 then ([b'], false) else ([0], true)
  | b :: rest =>
    let b' := (b + 1) % 256
    if b' ≠ 0 then (b' :: rest, false)
    else
      let r := incNonceRev rest
      (0 :: r.1, r.2)

/-- `incNonce` of `crypto.go`: buffer after the call, and whether the
"chunk counter overflowed" error was returned. -/
def incNonce (nonce : List Nat) : List Nat × Bool :=
  let r := incNonceRev nonce.reverse
  (r.1.reverse, r.2)

/-! ### Error taxonomy

The sentinel errors of the library (`ErrParsing`, `ErrSalt`, ...), the
AEAD authentication failure, the nonce-overflow and closed-writer errors
from `stream.go`/`crypto.go`, `io.EOF`, and I/O errors of the borrowed
sink/source (tagged by a number so distinct failures stay distinct).
`ErrCause` lists the errors that `ParseHeader` ever chains behind
`ErrParsing` via `fmt.Errorf("%w: %w", ErrParsing, e)`; `eofCause`
stands for a wrapped `io` error from `ReadString`. -/
inductive ErrCause where
  | argonVersion
  | argonTime
  | argonMemory
  | argonThreads
  | salt
  | chunkSize
  | eofCause
  deriving DecidableEq, Repr

inductive Err where
  | nilParams
  | argonType
  | argonVersion
  | argonTime
  | argonMemory
  | argonThreads
  | salt
  | saltSize
  | chunkSize
  | parsing : Option ErrCause → Err
  | nonceOverflow
  | authentication
  | closedWriter
  | eof
  | ioErr : Nat → Err
  deriving DecidableEq, Repr

/-- `incNonce` as the Go callers see it: the new buffer or the overflow error. -/
def incNonceE (nonce : List Nat) : Except Err (List Nat) :=
  let r := incNonce nonce
  if r.2 then .error .nonceOverflow else .ok r.1

/-! ### The AEAD interface

`stream.go` uses `chacha20poly1305.New(key)`, an external library value of
type `cipher.AEAD`.  An `AEAD` here is one such keyed instance: `Seal n p`
is `aead.Seal(nil, n, p, nil)` and `Open n c` is `aead.Open(nil, n, c, nil)`
(`none` = authentication error).  Theorems assume only the documented
contract of `cipher.AEAD` (ciphertext = plaintext + 16-byte tag, open
inverts seal, forgeries are rejected), stated as hypotheses. -/
structure AEAD where
  Seal : List Nat → List Nat → List Nat
  Open : List Nat → List Nat → Option (List Nat)

/-- XOR of all entries of a list. -/
def xorAll (l : List Nat) : Nat := l.foldr (fun a b => a ^^^ b) 0

/-- Tag of the stand-in AEAD: 16 bytes whose first byte is the XOR of the
nonce bytes and message bytes. -/
def toyTag (nonce msg : List Nat) : List Nat :=
  (xorAll nonce ^^^ xorAll msg) :: List.replicate 15 37

/-- A concrete stand-in AEAD used to instantiate the AEAD-contract
hypotheses of the theorems on concrete inputs: it appends a 16-byte tag
and on opening recomputes and compares it. -/
def toyAead : AEAD where
  Seal n p := p ++ toyTag n p
  Open n c :=
    if c.length < 16 then none
    else
      let m := c.take (c.length - 16)
      let t := c.drop (c.length - 16)
      if t = toyTag n m then some m else none

theorem toyAead_len : ∀ n p, (toyAead.Seal n p).length = p.length + 16 := by
  intro n p
  simp [toyAead, toyTag, List.length_append]

theorem toyAead_roundtrip : ∀ n p, toyAead.Open n (toyAead.Seal n p) = some p := by
  intro n p
  simp only [toyAead, toyTag]
  have hlen : (p ++ ((xorAll n ^^^ xorAll p) :: List.replicate 15 37)).length = p.length + 16 := by
    simp
  rw [hlen]
  have h16 : ¬ (p.length + 16 < 16) := by omega
  simp only [h16, if_false]
  have hsub : p.length + 16 - 16 = p.length := by omega
  rw [hsub, List.take_left' rfl, List.drop_left' rfl]
  simp

/-! ### Parameters (`params.go`)

`Params` mirrors the Go struct field for field.  Fixed-width Go types are
modelled as `Nat` (resp. `Int` for the `int64` chunk size); `WFParams`
states the bounds the Go types impose on any representable value, and
casts in the code are explicit `% 256`.  `Salt : Option (List Nat)`
distinguishes a `nil` slice (`none`) from a present one (`some`). -/
structure Params where
  ArgonVersion : Nat
  ArgonType : List Nat
  SaltSize : Nat
  Salt : Option (List Nat)
  ArgonTime : Nat
  ArgonMemory : Nat
  ArgonThreads : Nat
  ChunkSize : Int
  deriving DecidableEq, Repr

/-- The bounds that the Go field types (`uint8`, `uint32`, `int64`,
`[]byte`, `string`) impose on every representable `Params` value. -/
def WFParams (p : Params) : Prop :=
  p.ArgonVersion < 256 ∧ p.SaltSize < 256 ∧ p.ArgonTime < 2 ^ 32 ∧
    p.ArgonMemory < 2 ^ 32 ∧ p.ArgonThreads < 256 ∧
    -(2 ^ 63 : Int) ≤ p.ChunkSize ∧ p.ChunkSize < 2 ^ 63 ∧
    isBytes p.ArgonType ∧ (∀ s, p.Salt = some s → isBytes s)

/-- `"argon2id"` as bytes (constant `ArgonType` of `params.go`). -/
def argonTypeStr : List Nat := [97, 114, 103, 111, 110, 50, 105, 100]

/-- The defaults of `params.go`: `ArgonVersion = 19`, `SaltSize = 16`,
`ArgonTime = 1`, `ArgonMemory = 1<<21`, `ArgonThreads = 4`,
`ChunkSize = 64*(1<<10)`. -/
def defaultVersion : Nat := 19
def defaultSaltSize : Nat := 16
def defaultTime : Nat := 1
def defaultMemory : Nat := 1 <<< 21
def defaultThreads : Nat := 4
def defaultChunkSize : Int := 64 * (1 <<< 10)

/-- `Params.Check` of `params.go`, translated clause for clause: the Go
method walks the fields in order (type, version, salt, time, memory,
threads, chunk size), replacing a zero value by its default and rejecting
an invalid one.  Go mutates the receiver field by field; since no clause
reads a field written by an earlier clause, each clause here computes
that field's final value and the updated record is assembled at the end.
Note the `uint8` cast in `p.SaltSize = uint8(len(p.Salt))`, modelled as
`% 256`. -/
def check (p : Params) : Except Err Params :=
  (if p.ArgonType = [] then Except.ok argonTypeStr
   else if p.ArgonType ≠ argonTypeStr then Except.error Err.argonType
   else Except.ok p.ArgonType).bind fun argonType =>
  (if p.ArgonVersion = 0 then Except.ok defaultVersion
   else if p.ArgonVersion ≠ defaultVersion then Except.error Err.argonVersion
   else Except.ok p.ArgonVersion).bind fun argonVersion =>
  (match p.Salt with
   | some s =>
     if s.length > 1 <<< 8 then Except.error Err.salt
     else if p.SaltSize ≠ 0 ∧ p.SaltSize ≠ s.length then Except.error Err.saltSize
     else Except.ok (s.length % 256)
   | none =>
     if p.SaltSize = 0 then Except.ok defaultSaltSize
     else Except.ok p.SaltSize).bind fun saltSize =>
  (if p.ChunkSize = 0 then Except.ok defaultChunkSize
   else if p.ChunkSize < 0 then Except.error Err.chunkSize
   else Except.ok p.ChunkSize).bind fun chunkSize =>
  Except.ok
    { ArgonType := argonType, ArgonVersion := argonVersion, SaltSize := saltSize,
      Salt := p.Salt,
      ArgonTime := if p.ArgonTime = 0 then defaultTime else p.ArgonTime,
      ArgonMemory := if p.ArgonMemory = 0 then defaultMemory else p.ArgonMemory,
      ArgonThreads := if p.ArgonThreads = 0 then defaultThreads else p.ArgonThreads,
      ChunkSize := chunkSize }

/-! ### Decimal formatting and parsing (`fmt.Sprintf("%d")`, `strconv`) -/

/-- Decimal digits of `n`, least significant first, as values `0..9`
(empty for `0`). -/
def decDigitsRev : Nat → List Nat
  | 0 => []
  | n + 1 => ((n + 1) % 10) :: decDigitsRev ((n + 1) / 10)
decreasing_by exact Nat.div_lt_self (Nat.succ_pos n) (by norm_num)

/-- `%d` of a `Nat`: ASCII bytes of its decimal representation. -/
def natToDec (n : Nat) : List Nat :=
  if n = 0 then [48] else ((decDigitsRev n).map (· + 48)).reverse

/-- `%d` of an `int64`. -/
def intToDec (i : Int) : List Nat :=
  if i < 0 then 45 :: natToDec i.natAbs else natToDec i.toNat

def isDigit (b : Nat) : Bool := 48 ≤ b && b ≤ 57

/-- Value of a big-endian ASCII digit string. -/
def digitsVal (l : List Nat) : Nat :=
  l.foldl (fun a b => a * 10 + (b - 48)) 0

/-- `strconv.ParseUint(s, 10, bits)`: nonempty, all decimal digits, value
within `bits` bits (Go reports `ErrRange` otherwise, an error all the
same). -/
def parseUint (bits : Nat) (s : List Nat) : Option Nat :=
  if s = [] then none
  else if s.all isDigit then
    let v := digitsVal s
    if v < 2 ^ bits then some v else none
  else none

/-- `strconv.ParseInt(s, 10, 64)`: an optional `+`/`-` sign, then decimal
digits, within the `int64` range. -/
def parseInt64 (s : List Nat) : Option Int :=
  match s with
  | 43 :: rest =>
    if rest = [] then none
    else if rest.all isDigit then
      let v := digitsVal rest
      if v < 2 ^ 63 then some (v : Int) else none
    else none
  | 45 :: rest =>
    if rest = [] then none
    else if rest.all isDigit then
      let v := digitsVal rest
      if v ≤ 2 ^ 63 then some (-(v : Int)) else none
    else none
  | _ =>
    if s = [] then none
    else if s.all isDigit then
      let v := digitsVal s
      if v < 2 ^ 63 then some (v : Int) else none
    else none

/-! ### Base64 (`encoding/base64`, `RawStdEncoding`) -/

/-- The standard base64 alphabet: value `0..63` to ASCII byte. -/
def b64Char (v : Nat) : Nat :=
  if v < 26 then 65 + v
  else if v < 52 then 97 + (v - 26)
  else if v < 62 then 48 + (v - 52)
  else if v = 62 then 43
  else 47

/-- Inverse alphabet lookup; `none` for a byte outside the alphabet. -/
def b64Index (b : Nat) : Option Nat :=
  if 65 ≤ b ∧ b ≤ 90 then some (b - 65)
  else if 97 ≤ b ∧ b ≤ 122 then some (26 + (b - 97))
  else if 48 ≤ b ∧ b ≤ 57 then some (52 + (b - 48))
  else if b = 43 then some 62
  else if b = 47 then some 63
  else none

/-- `RawStdEncoding.EncodeToString`, grouping 3 bytes into 4 characters,
the final group unpadded. -/
def b64Encode : List Nat → List Nat
  | [] => []
  | [b1] => [b64Char (b1 / 4), b64Char (b1 % 4 * 16)]
  | [b1, b2] => [b64Char (b1 / 4), b64Char (b1 % 4 * 16 + b2 / 16), b64Char (b2 % 16 * 4)]
  | b1 :: b2 :: b3 :: rest =>
    b64Char (b1 / 4) :: b64Char (b1 % 4 * 16 + b2 / 16) ::
      b64Char (b2 % 16 * 4 + b3 / 64) :: b64Char (b3 % 64) :: b64Encode rest

/-- The quad-wise decoding behind `RawStdEncoding.DecodeString`.  Go's
decoder is *lenient* by default (`Strict()` is not used by `params.go`):
the unused low bits of the final character of a short group are ignored,
so distinct strings can decode to the same bytes.  A final group of one
character is a `CorruptInputError`. -/
def b64DecodeQuads : List Nat → Option (List Nat)
  | [] => some []
  | [_] => none
  | [c1, c2] => do
    let v1 ← b64Index c1
    let v2 ← b64Index c2
    pure [v1 * 4 + v2 / 16]
  | [c1, c2, c3] => do
    let v1 ← b64Index c1
    let v2 ← b64Index c2
    let v3 ← b64Index c3
    pure [v1 * 4 + v2 / 16, v2 % 16 * 16 + v3 / 4]
  | c1 :: c2 :: c3 :: c4 :: rest => do
    let v1 ← b64Index c1
    let v2 ← b64Index c2
    let v3 ← b64Index c3
    let v4 ← b64Index c4
    let tail ← b64DecodeQuads rest
    pure ((v1 * 4 + v2 / 16) :: (v2 % 16 * 16 + v3 / 4) :: (v3 % 4 * 64 + v4) :: tail)

/-- `RawStdEncoding.DecodeString`: newline characters are skipped, then
the input is decoded in groups of four. -/
def b64Decode (s : List Nat) : Option (List Nat) :=
  b64DecodeQuads (s.filter (fun b => b != 13 && b != 10))

/-! ### Header marshalling and parsing (`params.go`) -/

/-- `strings.Split(s, sep)` for a one-byte separator. -/
def goSplit (sep : Nat) : List Nat → List (List Nat)
  | [] => [[]]
  | b :: rest =>
    if b = sep then [] :: goSplit sep rest
    else
      match goSplit sep rest with
      | [] => [[b]]
      | g :: gs => (b :: g) :: gs

/-- The header bytes `MarshalHeader` prints for an already-checked
parameter record:
`$<type>$v=<V>$t=<T>,m=<M>,p=<P>$s=<salt base64>$b=<B>\n`. -/
def headerBytes (p : Params) : List Nat :=
  [36] ++ p.ArgonType ++ [36, 118, 61] ++ natToDec p.ArgonVersion ++
    [36, 116, 61] ++ natToDec p.ArgonTime ++ [44, 109, 61] ++ natToDec p.ArgonMemory ++
    [44, 112, 61] ++ natToDec p.ArgonThreads ++ [36, 115, 61] ++
    b64Encode (p.Salt.getD []) ++ [36, 98, 61] ++ intToDec p.ChunkSize ++ [10]

/-- `Params.MarshalHeader`: check (normalize) the parameters, then print
the header line. -/
def marshalHeader (p : Params) : Except Err (List Nat) :=
  (check p).bind fun q => Except.ok (headerBytes q)

/-- `parseArgonParams` of `params.go`: the `t=<T>,m=<M>,p=<P>` field. -/
def parseArgonParams (p : Params) (value : List Nat) : Except Err Params :=
  let values := goSplit 44 value
  if values.length = 3 then
    let sub1 := goSplit 61 values[0]!
    if sub1.length = 2 ∧ sub1.head? = some [116] then
      match parseUint 32 sub1[1]! with
      | none => Except.error (Err.parsing (some .argonTime))
      | some t =>
        if t = 0 then Except.error Err.argonTime else
        let sub2 := goSplit 61 values[1]!
        if sub2.length = 2 ∧ sub2.head? = some [109] then
          match parseUint 32 sub2[1]! with
          | none => Except.error (Err.parsing (some .argonMemory))
          | some m =>
            if m = 0 then Except.error Err.argonMemory else
            let sub3 := goSplit 61 values[2]!
            if sub3.length = 2 ∧ sub3.head? = some [112] then
              match parseUint 8 sub3[1]! with
              | none => Except.error (Err.parsing (some .argonThreads))
              | some th =>
                if th = 0 then Except.error Err.argonThreads
                else Except.ok { p with ArgonTime := t, ArgonMemory := m, ArgonThreads := th }
            else Except.error (Err.parsing none)
        else Except.error (Err.parsing none)
    else Except.error (Err.parsing none)
  else Except.error (Err.parsing none)

/-- `ParseHeader` of `params.go` over a byte stream: consume up to and
including the first LF, split on `$`, parse the six fields, then run
`Check`.  Returns the parameters and the unconsumed rest of the stream. -/
def parseHeader (src : List Nat) : Except Err (Params × List Nat) :=
  if (10 : Nat) ∈ src then
    let line := src.takeWhile (· != 10)
    let rest := (src.dropWhile (· != 10)).tail
    let args := goSplit 36 line
    if args.length = 6 ∧ args.head? = some [] then
      let p0 : Params :=
        { ArgonVersion := 0, ArgonType := args[1]!, SaltSize := 0, Salt := none,
          ArgonTime := 0, ArgonMemory := 0, ArgonThreads := 0, ChunkSize := 0 }
      if p0.ArgonType = [] then Except.error Err.argonType else
      let vvals := goSplit 61 args[2]!
      if vvals.length = 2 ∧ vvals.head? = some [118] then
        match parseUint 8 vvals[1]! with
        | none => Except.error (Err.parsing (some .argonVersion))
        | some v =>
          if v = 0 then Except.error Err.argonVersion else
          let p1 := { p0 with ArgonVersion := v }
          (parseArgonParams p1 args[3]!).bind fun p2 =>
          let svals := goSplit 61 args[4]!
          if svals.length = 2 ∧ svals.head? = some [115] then
            match b64Decode svals[1]! with
            | none => Except.error (Err.parsing (some .salt))
            | some saltBytes =>
              if saltBytes.length = 0 then Except.error Err.salt else
              let p3 := { p2 with Salt := some saltBytes }
              let bvals := goSplit 61 args[5]!
              if bvals.length = 2 ∧ bvals.head? = some [98] then
                match parseInt64 bvals[1]! with
                | none => Except.error (Err.parsing (some .chunkSize))
                | some i =>
                  if i ≤ 0 then Except.error Err.chunkSize else
                  let p4 := { p3 with ChunkSize := i }
                  (check p4).bind fun q =>
                  Except.ok (q, rest)
              else Except.error (Err.parsing none)
          else Except.error (Err.parsing none)
      else Except.error (Err.parsing none)
    else Except.error (Err.parsing none)
  else Except.error (Err.parsing (some .eofCause))

/-! ### The borrowed sink and source (`io.Writer` / `io.Reader`)

`stream.go` borrows a downstream `io.Writer` and an upstream `io.Reader`.
They are modelled just richly enough for the claims: a sink accumulates
the bytes written and may be set to fail from its `failAt`-th call on;
a source yields a byte string and then either a clean end of stream or
an error. -/
structure Snk where
  data : List Nat
  calls : Nat
  failAt : Option Nat
  deriving DecidableEq, Repr

/-- One `dst.Write` call on the sink. -/
def snkWrite (s : Snk) (bytes : List Nat) : Except Err Snk :=
  if s.failAt = some s.calls then .error (Err.ioErr 0)
  else .ok { s with data := s.data ++ bytes, calls := s.calls + 1 }

structure Src where
  data : List Nat
  failTail : Option Err
  deriving DecidableEq, Repr

/-- `io.CopyN(&buff, src, n)`: the bytes copied, the remaining source and
`none` when exactly `n` bytes were copied, `io.EOF` (or the source's
error) when the source ended first. -/
def srcReadN (s : Src) (n : Nat) : List Nat × Src × Option Err :=
  if n ≤ s.data.length then (s.data.take n, { s with data := s.data.drop n }, none)
  else (s.data, { s with data := [] }, some (s.failTail.getD Err.eof))

/-! ### The streaming encryptor (`Writer` of `stream.go`) -/

/-- The `Writer` struct: AEAD instance and borrowed sink live outside the
record (passed to each operation), matching the Go fields `chunkSize`,
`nonce`, `buff`, `err`. -/
structure GoWriter where
  chunkSize : Nat
  nonce : List Nat
  buff : List Nat
  err : Option Err
  deriving DecidableEq, Repr

/-- `NewWriter` after a successful parameter check: zero nonce, empty
buffer, no latched error. -/
def mkWriter (chunkSize : Nat) : GoWriter :=
  { chunkSize := chunkSize, nonce := List.replicate 12 0, buff := [], err := none }

/-- `Writer.flush`: seal the buffer, write the frame to the sink, reset
the buffer, increment the nonce.  On a sink error the Go method returns
before resetting the buffer; on nonce overflow the buffer is already
reset and the (wrapped-to-zero) nonce stored. -/
def flushW (A : AEAD) (w : GoWriter) (s : Snk) : Option Err × GoWriter × Snk :=
  let ct := A.Seal w.nonce w.buff
  match snkWrite s ct with
  | .error e => (some e, w, s)
  | .ok s' =>
    let w := { w with buff := [] }
    let r := incNonce w.nonce
    if r.2 then (some Err.nonceOverflow, { w with nonce := r.1 }, s')
    else (none, { w with nonce := r.1 }, s')

/-- The `for len(p) > 0` loop of `Writer.Write`.  Each iteration moves
`min(chunkSize - len(buff), len(p))` bytes into the buffer and flushes
when the buffer holds exactly `chunkSize` bytes; an error is latched into
`err` and ends the call.  `fuel` only bounds the iteration count; every
caller passes enough for the loop to run to completion. -/
def writeLoop (A : AEAD) : Nat → GoWriter → Snk → List Nat → Option Err × GoWriter × Snk
  | 0, w, s, _ => (none, w, s)
  | fuel + 1, w, s, p =>
    if p = [] then (none, w, s)
    else
      let size := min (w.chunkSize - w.buff.length) p.length
      let w := { w with buff := w.buff ++ p.take size }
      let p := p.drop size
      if w.buff.length = w.chunkSize then
        match flushW A w s with
        | (some e, w', s') => (some e, { w' with err := some e }, s')
        | (none, w', s') => writeLoop A fuel w' s' p
      else writeLoop A fuel w s p

/-- `Writer.Write`: returns the count and error exactly as the Go method
does — `0` with the latched error when one is set or when a flush fails,
`len(p)` on success. -/
def writeW (A : AEAD) (w : GoWriter) (s : Snk) (p : List Nat) :
    (Nat × Option Err) × GoWriter × Snk :=
  match w.err with
  | some e => ((0, some e), w, s)
  | none =>
    match writeLoop A (p.length + 1) w s p with
    | (some e, w', s') => ((0, some e), w', s')
    | (none, w', s') => ((p.length, none), w', s')

/-- `Writer.Close`: flush the remaining buffer (even when empty) as the
terminal frame, then latch the `closed writer` error. -/
def closeW (A : AEAD) (w : GoWriter) (s : Snk) : Option Err × GoWriter × Snk :=
  match w.err with
  | some e => (some e, w, s)
  | none =>
    match flushW A w s with
    | (some e, w', s') => (some e, { w' with err := some e }, s')
    | (none, w', s') => (none, { w' with err := some Err.closedWriter }, s')

/-! ### The streaming decryptor (`Reader` of `stream.go`) -/

structure GoReader where
  chunkSize : Nat
  nonce : List Nat
  buff : List Nat
  lastChunk : Bool
  err : Option Err
  deriving DecidableEq, Repr

/-- `NewReader` after a successful parameter check. -/
def mkReader (chunkSize : Nat) : GoReader :=
  { chunkSize := chunkSize, nonce := List.replicate 12 0, buff := [],
    lastChunk := false, err := none }

/-- `Reader.readChunk`: reset the buffer, copy up to `chunkSize + 16`
bytes from the source, mark the last chunk on a short read, open the
frame, truncate the buffer to the plaintext and increment the nonce.
Returns the `last` flag. -/
def readChunkW (A : AEAD) (r : GoReader) (s : Src) :
    Bool × Option Err × GoReader × Src :=
  let need := r.chunkSize + 16
  let (bytes, s', rerr) := srcReadN s need
  match rerr with
  | some e =>
    if e ≠ Err.eof then (false, some e, { r with buff := bytes }, s')
    else
      -- last = true (io.EOF), and n < need also holds
      openAndInc A r s' bytes true
  | none =>
    openAndInc A r s' bytes (bytes.length < need)
where
  /-- The tail of `readChunk` after the copy: `aead.Open`, `Truncate`,
  `incNonce`. -/
  openAndInc (A : AEAD) (r : GoReader) (s' : Src) (bytes : List Nat) (last : Bool) :
      Bool × Option Err × GoReader × Src :=
    match A.Open r.nonce bytes with
    | none => (false, some Err.authentication, { r with buff := bytes }, s')
    | some pt =>
      let r := { r with buff := pt }
      let inc := incNonce r.nonce
      if inc.2 then (false, some Err.nonceOverflow, { r with nonce := inc.1 }, s')
      else (last, none, { r with nonce := inc.1 }, s')

/-- The `for len(p) > 0` loop of `Reader.Read`.  `remaining` is the free
space left in the caller's buffer `p`; `acc` the bytes already copied out
(`total`).  Mirrors the Go control flow: an empty plaintext buffer is
refilled via `readChunk` unless the last chunk was seen, in which case
`io.EOF` is latched and the call returns `total` (or `0, io.EOF` when
nothing was produced); a `readChunk` error is latched and returned with
count `0`. -/
def readLoop (A : AEAD) : Nat → GoReader → Src → Nat → List Nat →
    (List Nat × Option Err) × GoReader × Src
  | 0, r, s, _, acc => ((acc, none), r, s)
  | fuel + 1, r, s, remaining, acc =>
    if remaining = 0 then ((acc, none), r, s)
    else if r.buff = [] then
      if r.lastChunk then
        let r := { r with err := some Err.eof }
        if acc = [] then (([], some Err.eof), r, s) else ((acc, none), r, s)
      else
        match readChunkW A r s with
        | (_, some e, r', s') => (([], some e), { r' with err := some e }, s')
        | (last, none, r', s') => readLoop A fuel { r' with lastChunk := last } s' remaining acc
    else
      let n := min r.buff.length remaining
      readLoop A fuel { r with buff := r.buff.drop n } s (remaining - n) (acc ++ r.buff.take n)

/-- `Reader.Read` into a caller buffer of length `bufSize`: the bytes
produced (the prefix written into `p`) and the error. -/
def readW (A : AEAD) (r : GoReader) (s : Src) (bufSize : Nat) :
    (List Nat × Option Err) × GoReader × Src :=
  match r.err with
  | some e => (([], some e), r, s)
  | none => readLoop A (s.data.length + bufSize + 2) r s bufSize []

/-! ### Whole-stream drivers -/

/-- Drive the decryptor to completion: call `Read` with a fresh buffer of
`bufSize` bytes until it reports an error, concatenating everything
produced.  (`ioErr 99` is an out-of-fuel marker that enough fuel never
reaches.) -/
def drain (A : AEAD) : Nat → GoReader → Src → Nat → List Nat → List Nat × Err
  | 0, _, _, _, acc => (acc, Err.ioErr 99)
  | fuel + 1, r, s, bufSize, acc =>
    match readW A r s bufSize with
    | ((out, some e), _, _) => (acc ++ out, e)
    | ((out, none), r', s') => drain A fuel r' s' bufSize (acc ++ out)

/-- Encrypt a whole plaintext: fresh `Writer` over an empty, never-failing
sink, one `Write` with all of `P`, then `Close`.  Returns the container
body (the sink contents) and the first error, if any. -/
def encryptBody (A : AEAD) (cs : Nat) (P : List Nat) : List Nat × Option Err :=
  let w := mkWriter cs
  let s : Snk := { data := [], calls := 0, failAt := none }
  match writeW A w s P with
  | ((_, some e), _, _) => ([], some e)
  | ((_, none), w', s') =>
    match closeW A w' s' with
    | (some e, _, _) => ([], some e)
    | (none, _, s'') => (s''.data, none)

/-- Decrypt a whole container body: fresh `Reader` over the body, drained
with a buffer comfortably larger than the plaintext. -/
def decryptBody (A : AEAD) (cs : Nat) (body : List Nat) : List Nat × Err :=
  drain A (body.length + 2) (mkReader cs) { data := body, failTail := none } (body.length + 1) []

/-! ### The frame decomposition the encryptor produces -/

/-- The 12-byte big-endian nonce holding the value `k`. -/
def nonceB (k : Nat) : List Nat := natToBytesBE 12 k

/-- The chunking discipline of `Writer`: all full `cs`-byte chunks, then
one terminal chunk of `len P mod cs` bytes (possibly empty). -/
def chunksOf (cs : Nat) (P : List Nat) : List (List Nat) :=
  if cs = 0 ∨ P.length < cs then [P]
  else P.take cs :: chunksOf cs (P.drop cs)
termination_by P.length
decreasing_by
  simp only [List.length_drop]
  omega

/-- The frames of the container body: chunk `i` sealed under nonce
`k + i`. -/
def sealChunks (A : AEAD) (cs k : Nat) (P : List Nat) : List (List Nat) :=
  if cs = 0 ∨ P.length < cs then [A.Seal (nonceB k) P]
  else A.Seal (nonceB k) (P.take cs) :: sealChunks A cs (k + 1) (P.drop cs)
termination_by P.length
decreasing_by
  simp only [List.length_drop]
  omega

/-! ### Nonce-counter lemmas -/

/-- Little-endian companion of `natToBytesBE` (the reversed byte order in
which `incNonceRev` walks the buffer). -/
def natToBytesLE : Nat → Nat → List Nat
  | 0, _ => []
  | w + 1, n => n % 256 :: natToBytesLE w (n / 256)

theorem natToBytesBE_reverse (w n : Nat) :
    (natToBytesBE w n).reverse = natToBytesLE w n := by
  induction w generalizing n with
  | zero => rfl
  | succ w ih =>
    simp [natToBytesBE, natToBytesLE, List.reverse_append, ih]

theorem natToBytesBE_length (w n : Nat) : (natToBytesBE w n).length = w := by
  induction w generalizing n with
  | zero => rfl
  | succ w ih => simp [natToBytesBE, ih]

theorem natToBytesBE_isBytes (w n : Nat) : isBytes (natToBytesBE w n) := by
  induction w generalizing n with
  | zero => intro b hb; simp [natToBytesBE] at hb
  | succ w ih =>
    intro b hb
    simp only [natToBytesBE, List.mem_append, List.mem_singleton] at hb
    rcases hb with hb | hb
    · exact ih _ b hb
    · subst hb; exact Nat.mod_lt _ (by norm_num)

theorem bytesToNatBE_append_one (l : List Nat) (b : Nat) :
    bytesToNatBE (l ++ [b]) = bytesToNatBE l * 256 + b := by
  simp [bytesToNatBE, List.foldl_append]

theorem bytesToNatBE_natToBytesBE (w n : Nat) :
    bytesToNatBE (natToBytesBE w n) = n % 256 ^ w := by
  induction w generalizing n with
  | zero => simp [natToBytesBE, bytesToNatBE, Nat.mod_one]
  | succ w ih =>
    rw [natToBytesBE, bytesToNatBE_append_one, ih]
    have h1 : (256 : Nat) ^ (w + 1) = 256 * 256 ^ w := by ring
    rw [h1, Nat.mod_mul]
    ring_nf

theorem natToBytesBE_mod (w n : Nat) :
    natToBytesBE w (n % 256 ^ w) = natToBytesBE w n := by
  induction w generalizing n with
  | zero => rfl
  | succ w ih =>
    have h1 : (256 : Nat) ^ (w + 1) = 256 * 256 ^ w := by ring
    have hd : n % 256 ^ (w + 1) / 256 = n / 256 % 256 ^ w := by
      rw [h1, Nat.mod_mul_right_div_self]
    have hm : n % 256 ^ (w + 1) % 256 = n % 256 :=
      Nat.mod_mod_of_dvd n (by rw [h1]; exact dvd_mul_right 256 (256 ^ w))
    simp only [natToBytesBE, hd, hm, ih]

/-- The byte-string of a well-formed buffer is recovered from its value. -/
theorem natToBytesBE_bytesToNatBE (l : List Nat) (hb : isBytes l) :
    natToBytesBE l.length (bytesToNatBE l) = l := by
  induction l using List.reverseRecOn with
  | nil => rfl
  | append_singleton l b ih =>
    have hbl : isBytes l := fun x hx => hb x (List.mem_append_left _ hx)
    have hbb : b < 256 := hb b (List.mem_append_right _ (List.mem_singleton_self b))
    rw [bytesToNatBE_append_one]
    simp only [List.length_append, List.length_singleton, natToBytesBE]
    have hdiv : (bytesToNatBE l * 256 + b) / 256 = bytesToNatBE l := by
      omega
    have hmod : (bytesToNatBE l * 256 + b) % 256 = b := by
      omega
    rw [hdiv, hmod, ih hbl]

theorem bytesToNatBE_lt (l : List Nat) (hb : isBytes l) :
    bytesToNatBE l < 256 ^ l.length := by
  induction l using List.reverseRecOn with
  | nil => simp [bytesToNatBE]
  | append_singleton l b ih =>
    have hbl : isBytes l := fun x hx => hb x (List.mem_append_left _ hx)
    have hbb : b < 256 := hb b (List.mem_append_right _ (List.mem_singleton_self b))
    have := ih hbl
    rw [bytesToNatBE_append_one]
    simp only [List.length_append, List.length_singleton, pow_succ]
    nlinarith

/-- The heart of `incNonce`: on the little-endian view it adds one with
carry, and reports overflow exactly from the all-`0xFF` buffer. -/
theorem incNonceRev_natToBytesLE : ∀ (w v : Nat), 1 ≤ w → v < 256 ^ w →
    incNonceRev (natToBytesLE w v) =
      (natToBytesLE w ((v + 1) % 256 ^ w), decide (v = 256 ^ w - 1))
  | 1, v, _, hv => by
    have hv' : v < 256 := by
      have : (256 : Nat) ^ 1 = 256 := by norm_num
      omega
    have hle : natToBytesLE 1 v = [v] := by
      simp [natToBytesLE, Nat.mod_eq_of_lt hv']
    rw [hle]
    by_cases hmax : v = 255
    · subst hmax
      have hr : ((255 : Nat) + 1) % 256 ^ 1 = 0 := by norm_num
      rw [hr]
      simp [incNonceRev, natToBytesLE]
    · have h1 : v + 1 < 256 := by omega
      have hr : (v + 1) % 256 ^ 1 = v + 1 := by
        have : (256 : Nat) ^ 1 = 256 := by norm_num
        rw [this]
        exact Nat.mod_eq_of_lt h1
      have hne : v ≠ 256 ^ 1 - 1 := by
        have : (256 : Nat) ^ 1 = 256 := by norm_num
        omega
      rw [hr]
      simp [incNonceRev, natToBytesLE, Nat.mod_eq_of_lt h1, hne, Nat.mod_eq_of_lt hv']
      omega
  | w + 2, v, _, hv => by
    have hpow : (256 : Nat) ^ (w + 2) = 256 * 256 ^ (w + 1) := by ring
    have hden : (0 : Nat) < 256 ^ (w + 1) := Nat.pos_pow_of_pos _ (by norm_num)
    have hvd : v / 256 < 256 ^ (w + 1) := by
      rw [hpow] at hv
      exact Nat.div_lt_of_lt_mul (by omega)
    have hbyte : v % 256 < 256 := Nat.mod_lt _ (by norm_num)
    -- the (w+2)-byte buffer is a cons whose tail is itself nonempty
    have hhead : natToBytesLE (w + 2) v = v % 256 :: natToBytesLE (w + 1) (v / 256) := rfl
    have htail : natToBytesLE (w + 1) (v / 256) =
        v / 256 % 256 :: natToBytesLE w (v / 256 / 256) := rfl
    by_cases hlast : v % 256 = 255
    · -- the rightmost byte wraps: carry into the rest
      have hstep : incNonceRev (natToBytesLE (w + 2) v) =
          (0 :: (incNonceRev (natToBytesLE (w + 1) (v / 256))).1,
            (incNonceRev (natToBytesLE (w + 1) (v / 256))).2) := by
        rw [hhead, htail]
        simp [incNonceRev, hlast]
      have ih := incNonceRev_natToBytesLE (w + 1) (v / 256) (by omega) hvd
      rw [hstep, ih]
      have hv1 : (v + 1) % 256 = 0 := by omega
      have hv2 : (v + 1) / 256 = v / 256 + 1 := by omega
      have hgoal1 : natToBytesLE (w + 2) ((v + 1) % 256 ^ (w + 2)) =
          0 :: natToBytesLE (w + 1) ((v / 256 + 1) % 256 ^ (w + 1)) := by
        have hm : (v + 1) % 256 ^ (w + 2) % 256 = (v + 1) % 256 :=
          Nat.mod_mod_of_dvd _ (by rw [hpow]; exact dvd_mul_right 256 (256 ^ (w + 1)))
        have hd : (v + 1) % 256 ^ (w + 2) / 256 = (v + 1) / 256 % 256 ^ (w + 1) := by
          rw [hpow, Nat.mod_mul_right_div_self]
        show (v + 1) % 256 ^ (w + 2) % 256 :: natToBytesLE (w + 1) ((v + 1) % 256 ^ (w + 2) / 256) = _
        rw [hm, hd, hv1, hv2]
      have hgoal2 : (v = 256 ^ (w + 2) - 1) ↔ (v / 256 = 256 ^ (w + 1) - 1) := by
        rw [hpow]
        omega
      rw [hgoal1]
      congr 1
      simp only [decide_eq_decide]
      exact hgoal2.symm
    · -- the rightmost byte does not wrap
      have hb1 : (v % 256 + 1) % 256 = v % 256 + 1 := Nat.mod_eq_of_lt (by omega)
      have hb2 : v % 256 + 1 ≠ 0 := by omega
      have hstep : incNonceRev (natToBytesLE (w + 2) v) =
          ((v % 256 + 1) :: natToBytesLE (w + 1) (v / 256), false) := by
        rw [hhead, htail]
        simp [incNonceRev, hb1, hb2]
      rw [hstep]
      have hne : v ≠ 256 ^ (w + 2) - 1 := by
        intro h
        rw [hpow] at h
        omega
      have hfits : v + 1 < 256 ^ (w + 2) := by
        rw [hpow] at hv ⊢
        omega
      have hgoal1 : natToBytesLE (w + 2) ((v + 1) % 256 ^ (w + 2)) =
          (v % 256 + 1) :: natToBytesLE (w + 1) (v / 256) := by
        rw [Nat.mod_eq_of_lt hfits]
        have h1 : (v + 1) % 256 = v % 256 + 1 := by omega
        have h2 : (v + 1) / 256 = v / 256 := by omega
        show (v + 1) % 256 :: natToBytesLE (w + 1) ((v + 1) / 256) = _
        rw [h1, h2]
      rw [hgoal1]
      simp [hne]

/-- `incNonce` on the big-endian encoding of `v`. -/
theorem incNonce_natToBytesBE (w v : Nat) (hw : 1 ≤ w) (hv : v < 256 ^ w) :
    incNonce (natToBytesBE w v) =
      (natToBytesBE w ((v + 1) % 256 ^ w), decide (v = 256 ^ w - 1)) := by
  unfold incNonce
  rw [natToBytesBE_reverse, incNonceRev_natToBytesLE w v hw hv]
  simp only
  rw [← natToBytesBE_reverse, List.reverse_reverse]

/-- `incNonce` on the 12-byte nonce holding `k`. -/
theorem incNonce_nonceB (k : Nat) (hk : k < 256 ^ 12) :
    incNonce (nonceB k) = (nonceB ((k + 1) % 256 ^ 12), decide (k = 256 ^ 12 - 1)) :=
  incNonce_natToBytesBE 12 k (by norm_num) hk

/-- The common case: a counter that has not reached the maximum. -/
theorem incNonce_nonceB_no_overflow (k : Nat) (hk : k + 1 < 256 ^ 12) :
    incNonce (nonceB k) = (nonceB (k + 1), false) := by
  rw [incNonce_nonceB k (by omega)]
  have h1 : (k + 1) % 256 ^ 12 = k + 1 := Nat.mod_eq_of_lt hk
  have h2 : decide (k = 256 ^ 12 - 1) = false := by
    simp only [decide_eq_false_iff_not]
    omega
  rw [h1, h2]

theorem nonceB_zero : nonceB 0 = List.replicate 12 0 := by decide

theorem natToBytesBE_max : natToBytesBE 12 (256 ^ 12 - 1) = List.replicate 12 255 := by decide

theorem bytesToNatBE_max : bytesToNatBE (List.replicate 12 255) = 256 ^ 12 - 1 := by decide

/-- C3. Nonce increment: for every 12-byte buffer, `incNonce` treats the
bytes as an unsigned 96-bit big-endian integer and adds one — on success
the buffer holds the old value plus one (and is still 12 bytes of valid
bytes) — and it returns the `NonceOverflow` failure if and only if all
12 bytes were `0xFF` on entry. -/
theorem incNonce_bigendian_increment (l : List Nat) (hlen : l.length = 12) (hb : isBytes l) :
    ((incNonce l).2 = true ↔ l = List.replicate 12 255) ∧
    ((incNonce l).2 = false →
      bytesToNatBE (incNonce l).1 = bytesToNatBE l + 1 ∧
        (incNonce l).1.length = 12 ∧ isBytes (incNonce l).1) := by
  have hv : bytesToNatBE l < 256 ^ 12 := by
    have := bytesToNatBE_lt l hb
    rwa [hlen] at this
  have hrepr : natToBytesBE 12 (bytesToNatBE l) = l := by
    have := natToBytesBE_bytesToNatBE l hb
    rwa [hlen] at this
  have hinc : incNonce l =
      (natToBytesBE 12 ((bytesToNatBE l + 1) % 256 ^ 12),
        decide (bytesToNatBE l = 256 ^ 12 - 1)) := by
    conv_lhs => rw [← hrepr]
    exact incNonce_natToBytesBE 12 (bytesToNatBE l) (by norm_num) hv
  constructor
  · rw [hinc]
    simp only [decide_eq_true_eq]
    constructor
    · intro hmax
      rw [← hrepr, hmax]
      exact natToBytesBE_max
    · intro hrep
      rw [hrep] at hrepr ⊢
      exact bytesToNatBE_max
  · intro hflag
    rw [hinc] at hflag ⊢
    simp only [decide_eq_true_eq] at hflag
    have hne : bytesToNatBE l ≠ 256 ^ 12 - 1 := by
      intro h
      simp [h] at hflag
    have hlt : bytesToNatBE l + 1 < 256 ^ 12 := by omega
    rw [Nat.mod_eq_of_lt hlt]
    refine ⟨?_, natToBytesBE_length _ _, natToBytesBE_isBytes _ _⟩
    rw [bytesToNatBE_natToBytesBE, Nat.mod_eq_of_lt hlt]

/-! ### Inversion of `Params.Check` -/

set_option maxHeartbeats 4000000 in
/-- What a successful `check` guarantees about the resulting record: the
type and version are fixed, the salt is untouched, the salt size is the
`uint8` cast of the salt length (resp. the default/declared size when no
salt is present), the remaining fields are defaulted when zero, and the
chunk size ends up strictly positive. -/
theorem check_ok_fields (p q : Params) (h : check p = .ok q) :
    q.ArgonType = argonTypeStr ∧
    q.ArgonVersion = 19 ∧
    q.Salt = p.Salt ∧
    (∀ s, p.Salt = some s → s.length ≤ 256 ∧ q.SaltSize = s.length % 256) ∧
    (p.Salt = none → q.SaltSize = if p.SaltSize = 0 then 16 else p.SaltSize) ∧
    (q.ArgonTime = if p.ArgonTime = 0 then defaultTime else p.ArgonTime) ∧
    (q.ArgonMemory = if p.ArgonMemory = 0 then defaultMemory else p.ArgonMemory) ∧
    (q.ArgonThreads = if p.ArgonThreads = 0 then defaultThreads else p.ArgonThreads) ∧
    (q.ChunkSize = if p.ChunkSize = 0 then defaultChunkSize else p.ChunkSize) ∧
    0 < q.ChunkSize := by
  unfold check at h
  simp only [Except.bind] at h
  rcases hsalt : p.Salt with - | s <;> simp only [hsalt] at h ⊢
  all_goals repeat' split at h
  all_goals (try (cases h))
  all_goals split_ifs at *
  all_goals simp_all [defaultVersion, defaultTime, defaultMemory, defaultThreads,
    defaultSaltSize, defaultChunkSize]
  all_goals omega

/-- The success direction of `check`: on a record with the right type and
version, a consistent salt declaration and a positive chunk size, `check`
succeeds and returns the record with the defaults filled in. -/
theorem check_eq_ok (p : Params)
    (hty : p.ArgonType = argonTypeStr)
    (hver : p.ArgonVersion = 19)
    (hsalt : ∀ s, p.Salt = some s → s.length ≤ 256 ∧ (p.SaltSize = 0 ∨ p.SaltSize = s.length))
    (hC : 0 < p.ChunkSize) :
    check p = .ok { p with
      SaltSize := match p.Salt with
        | some s => s.length % 256
        | none => if p.SaltSize = 0 then defaultSaltSize else p.SaltSize,
      ArgonTime := if p.ArgonTime = 0 then defaultTime else p.ArgonTime,
      ArgonMemory := if p.ArgonMemory = 0 then defaultMemory else p.ArgonMemory,
      ArgonThreads := if p.ArgonThreads = 0 then defaultThreads else p.ArgonThreads } := by
  unfold check
  have h1 : ¬(argonTypeStr = ([] : List Nat)) := by decide
  have h2 : ¬((19 : Nat) = 0) := by decide
  have h2b : (19 : Nat) = defaultVersion := by decide
  have h3 : ¬(p.ChunkSize = 0) := by omega
  have h4 : ¬(p.ChunkSize < 0) := by omega
  rcases hs : p.Salt with - | s
  · simp only [hs, hty, hver, h1, h2, h3, h4, if_false, ite_true, ite_false, ne_eq,
      not_true, not_false_iff, ite_self, Except.bind, h2b, if_neg]
    split_ifs <;> rfl
  · obtain ⟨hlen, hss⟩ := hsalt s hs
    have h5 : ¬(s.length > 1 <<< 8) := by
      have he : (1 <<< 8 : Nat) = 256 := by decide
      omega
    have h6 : ¬(p.SaltSize ≠ 0 ∧ p.SaltSize ≠ s.length) := by
      rcases hss with h | h <;> simp [h]
    simp only [hs, hty, hver, h1, h2, h3, h4, if_false, ite_true, ite_false, ne_eq,
      not_true, not_false_iff, ite_self, Except.bind, h2b, if_neg h5, if_neg h6]

/-- Witness for C3 at a concrete carry-propagating input. -/
theorem incNonce_bigendian_increment_witness :
    bytesToNatBE (incNonce [0, 0, 0, 0, 0, 0, 0, 0, 0, 0, 1, 255]).1 =
      bytesToNatBE [0, 0, 0, 0, 0, 0, 0, 0, 0, 0, 1, 255] + 1 :=
  ((incNonce_bigendian_increment [0, 0, 0, 0, 0, 0, 0, 0, 0, 0, 1, 255]
      (by decide) (by decide)).2 (by decide)).1

/-! ### C6: the normalization invariant -/

set_option maxRecDepth 4096 in
/-- C6 counterexample: `Check` accepts a 256-byte salt (the Go guard
rejects only lengths `> 256`), and `p.SaltSize = uint8(len(p.Salt))`
then wraps to `0`: after successful normalization `salt_size` is neither
strictly positive nor equal to `len(salt)`. -/
theorem check_saltsize_wrap_cex :
    (check { ArgonVersion := 0, ArgonType := [], SaltSize := 0,
             Salt := some (List.replicate 256 0), ArgonTime := 0, ArgonMemory := 0,
             ArgonThreads := 0, ChunkSize := 0 }).map
        (fun q => (q.SaltSize, q.Salt.map List.length)) = .ok (0, some 256) := by
  decide

/-- C6 as amended: after a successful `Check`, the argon version, time,
memory, threads and chunk size are strictly positive, and the salt size
equals `len(salt) % 256` whenever a salt is present — hence equals
`len(salt)` (and is positive for a nonempty salt) whenever
`len(salt) ≤ 255`, while a 256-byte salt wraps it to `0`; when no salt is
present the salt size is strictly positive. -/
theorem check_normalization_invariant (p q : Params) (h : check p = .ok q) :
    0 < q.ArgonVersion ∧ 0 < q.ArgonTime ∧ 0 < q.ArgonMemory ∧ 0 < q.ArgonThreads ∧
    0 < q.ChunkSize ∧
    (∀ s, q.Salt = some s → q.SaltSize = s.length % 256 ∧
      (s.length ≤ 255 → q.SaltSize = s.length)) ∧
    (q.Salt = none → 0 < q.SaltSize) := by
  obtain ⟨-, hver, hsalt_eq, hsome, hnone, hT, hM, hTh, hC, hCpos⟩ :=
    check_ok_fields p q h
  refine ⟨by omega, ?_, ?_, ?_, hCpos, ?_, ?_⟩
  · rw [hT]; unfold defaultTime; split_ifs <;> omega
  · rw [hM]; unfold defaultMemory; split_ifs <;> omega
  · rw [hTh]; unfold defaultThreads; split_ifs <;> omega
  · intro s hs
    rw [hsalt_eq] at hs
    obtain ⟨hle, heq⟩ := hsome s hs
    refine ⟨heq, fun h255 => ?_⟩
    rw [heq, Nat.mod_eq_of_lt (by omega)]
  · intro hqn
    rw [hsalt_eq] at hqn
    rw [hnone hqn]
    split_ifs <;> omega

/-- A zero record carrying only a 3-byte salt, and its normalization. -/
def paramsSalt3 : Params :=
  { ArgonVersion := 0, ArgonType := [], SaltSize := 0, Salt := some [1, 2, 3],
    ArgonTime := 0, ArgonMemory := 0, ArgonThreads := 0, ChunkSize := 0 }

def paramsSalt3Checked : Params :=
  { ArgonType := argonTypeStr, ArgonVersion := 19, SaltSize := 3, Salt := some [1, 2, 3],
    ArgonTime := 1, ArgonMemory := 2097152, ArgonThreads := 4, ChunkSize := 65536 }

/-- Witness for the amended C6 on a concrete record with a 3-byte salt. -/
theorem check_normalization_invariant_witness :
    paramsSalt3Checked.SaltSize = [1, 2, 3].length % 256 ∧
    (0 : Int) < paramsSalt3Checked.ChunkSize :=
  ⟨((check_normalization_invariant paramsSalt3 paramsSalt3Checked
      (by decide)).2.2.2.2.2.1 [1, 2, 3] rfl).1,
   (check_normalization_invariant paramsSalt3 paramsSalt3Checked
      (by decide)).2.2.2.2.1⟩

/-! ### The encryptor on a clean run -/

theorem snkWrite_ok (s : Snk) (h : s.failAt = none) (b : List Nat) :
    snkWrite s b = .ok { s with data := s.data ++ b, calls := s.calls + 1 } := by
  simp [snkWrite, h]

theorem flushW_ok (A : AEAD) (w : GoWriter) (s : Snk) (k : Nat)
    (hn : w.nonce = nonceB k) (hf : s.failAt = none) (hk : k + 1 < 256 ^ 12) :
    flushW A w s =
      (none, { w with buff := [], nonce := nonceB (k + 1) },
       { s with data := s.data ++ A.Seal (nonceB k) w.buff, calls := s.calls + 1 }) := by
  simp [flushW, snkWrite_ok s hf, hn, incNonce_nonceB_no_overflow k hk]

set_option maxHeartbeats 1600000 in
theorem write_close_spec (A : AEAD) :
    ∀ (n : Nat) (P : List Nat) (fuel k cs : Nat) (d : List Nat) (c : Nat),
      P.length = n → 0 < cs → P.length < fuel → k + P.length / cs + 1 < 256 ^ 12 →
      ∃ w1 s1,
        writeLoop A fuel { chunkSize := cs, nonce := nonceB k, buff := [], err := none }
            { data := d, calls := c, failAt := none } P = (none, w1, s1) ∧
        closeW A w1 s1 =
          (none,
           { chunkSize := cs, nonce := nonceB (k + P.length / cs + 1), buff := [],
             err := some Err.closedWriter },
           { data := d ++ (sealChunks A cs k P).flatten, calls := c + P.length / cs + 1,
             failAt := none }) := by
  intro n
  induction n using Nat.strong_induction_on with
  | _ n ih =>
    intro P fuel k cs d c hn hcs hfuel hk
    match fuel, hfuel with
    | fuel + 1, hfuel =>
    by_cases hP : P = []
    · subst hP
      refine ⟨{ chunkSize := cs, nonce := nonceB k, buff := [], err := none },
        { data := d, calls := c, failAt := none }, by simp [writeLoop], ?_⟩
      simp only [List.length_nil, Nat.zero_div, Nat.add_zero] at hk ⊢
      have hflush := flushW_ok A
        { chunkSize := cs, nonce := nonceB k, buff := [], err := none }
        { data := d, calls := c, failAt := none } k rfl rfl (by omega)
      simp only [closeW, hflush]
      rw [sealChunks]
      simp [hcs]
    · have hPlen : 0 < P.length := List.length_pos.mpr hP
      by_cases hsmall : P.length < cs
      · -- P is nonempty and fits in the buffer: the loop just buffers it,
        -- Close seals it as the single (terminal) frame
        have hlen0 : P.length / cs = 0 := Nat.div_eq_of_lt hsmall
        have hstep : writeLoop A (fuel + 1)
            { chunkSize := cs, nonce := nonceB k, buff := [], err := none }
            { data := d, calls := c, failAt := none } P =
            (none, { chunkSize := cs, nonce := nonceB k, buff := P, err := none },
             { data := d, calls := c, failAt := none }) := by
          obtain ⟨fuel2, rfl⟩ : ∃ f2, fuel = f2 + 1 := ⟨fuel - 1, by omega⟩
          · have hmin : min (cs - List.length ([] : List Nat)) P.length = P.length := by
              simp
              omega
            simp only [writeLoop, if_neg hP, hmin]
            have htake : List.take P.length P = P := by simp
            have hdrop : List.drop P.length P = [] := by simp
            simp only [List.nil_append, htake, hdrop]
            have hne : ¬(P.length = cs) := by omega
            simp only [List.length_take, List.length_nil, if_neg hne]
            simp [writeLoop, hne]
        refine ⟨{ chunkSize := cs, nonce := nonceB k, buff := P, err := none },
          { data := d, calls := c, failAt := none }, hstep, ?_⟩
        have hflush := flushW_ok A
          { chunkSize := cs, nonce := nonceB k, buff := P, err := none }
          { data := d, calls := c, failAt := none } k rfl rfl (by omega)
        simp only [closeW, hflush]
        rw [sealChunks]
        simp [hcs, hsmall, hlen0]
      · -- P fills at least one chunk: one loop iteration seals the first
        -- chunk and the rest follows by induction
        have hge : cs ≤ P.length := by omega
        have hdiv : P.length / cs = (P.length - cs) / cs + 1 := Nat.div_eq_sub_div hcs hge
        have hge1 : 1 ≤ P.length / cs := (Nat.one_le_div_iff hcs).mpr hge
        have hmin : min (cs - List.length ([] : List Nat)) P.length = cs := by
          simp only [List.length_nil, Nat.sub_zero]
          omega
        have hflush := flushW_ok A
          { chunkSize := cs, nonce := nonceB k, buff := List.take cs P, err := none }
          { data := d, calls := c, failAt := none } k rfl rfl (by omega)
        have hstep : writeLoop A (fuel + 1)
            { chunkSize := cs, nonce := nonceB k, buff := [], err := none }
            { data := d, calls := c, failAt := none } P =
            writeLoop A fuel { chunkSize := cs, nonce := nonceB (k + 1), buff := [], err := none }
              { data := d ++ A.Seal (nonceB k) (List.take cs P), calls := c + 1, failAt := none }
              (List.drop cs P) := by
          simp only [writeLoop, if_neg hP, hmin, List.nil_append]
          have hlen : (List.take cs P).length = cs := List.length_take_of_le hge
          simp only [hlen, if_pos rfl, hflush]
          simp
        have hdropn : (List.drop cs P).length = P.length - cs := by simp
        have hfuel2 : (List.drop cs P).length < fuel := by
          rw [hdropn]
          omega
        have hbound : (k + 1) + (List.drop cs P).length / cs + 1 < 256 ^ 12 := by
          rw [hdropn]
          omega
        obtain ⟨w1, s1, hw, hc⟩ := ih (P.length - cs) (by omega) (List.drop cs P) fuel (k + 1) cs
          (d ++ A.Seal (nonceB k) (List.take cs P)) (c + 1) hdropn hcs hfuel2 hbound
        refine ⟨w1, s1, by rw [hstep, hw], ?_⟩
        have hchunks : sealChunks A cs k P =
            A.Seal (nonceB k) (P.take cs) :: sealChunks A cs (k + 1) (P.drop cs) := by
          rw [sealChunks]
          have hcond : ¬(cs = 0 ∨ P.length < cs) := by omega
          simp only [if_neg hcond]
        have hex1 : k + P.length / cs + 1 = (k + 1) + (List.drop cs P).length / cs + 1 := by
          rw [hdropn]
          omega
        have hex2 : c + P.length / cs + 1 = (c + 1) + (List.drop cs P).length / cs + 1 := by
          rw [hdropn]
          omega
        have hex3 : d ++ (sealChunks A cs k P).flatten =
            (d ++ A.Seal (nonceB k) (List.take cs P)) ++
              (sealChunks A cs (k + 1) (P.drop cs)).flatten := by
          rw [hchunks]
          simp [List.append_assoc]
        rw [hex1, hex2, hex3]
        exact hc

theorem sealChunks_stats (A : AEAD) (hlen : ∀ n p, (A.Seal n p).length = p.length + 16) :
    ∀ (n : Nat) (P : List Nat) (cs k : Nat), P.length = n → 0 < cs →
      (sealChunks A cs k P).length = P.length / cs + 1 ∧
      (sealChunks A cs k P).flatten.length = P.length + 16 * (P.length / cs + 1) ∧
      (∀ f ∈ (sealChunks A cs k P).dropLast, f.length = cs + 16) ∧
      ((sealChunks A cs k P).getLastD []).length = P.length % cs + 16 := by
  intro n
  induction n using Nat.strong_induction_on with
  | _ n ih =>
    intro P cs k hn hcs
    by_cases hsmall : P.length < cs
    · have hchunks : sealChunks A cs k P = [A.Seal (nonceB k) P] := by
        rw [sealChunks]
        simp [hsmall]
      rw [hchunks]
      have hdiv : P.length / cs = 0 := Nat.div_eq_of_lt hsmall
      have hmod : P.length % cs = P.length := Nat.mod_eq_of_lt hsmall
      simp [hlen, hdiv, hmod]
    · have hge : cs ≤ P.length := by omega
      have hdiv : P.length / cs = (P.length - cs) / cs + 1 := Nat.div_eq_sub_div hcs hge
      have hmod : P.length % cs = (P.length - cs) % cs := Nat.mod_eq_sub_mod hge
      have hchunks : sealChunks A cs k P =
          A.Seal (nonceB k) (P.take cs) :: sealChunks A cs (k + 1) (P.drop cs) := by
        rw [sealChunks]
        have hcond : ¬(cs = 0 ∨ P.length < cs) := by omega
        simp only [if_neg hcond]
      have hdropn : (P.drop cs).length = P.length - cs := by simp
      obtain ⟨ih1, ih2, ih3, ih4⟩ := ih (P.length - cs) (by omega) (P.drop cs) cs (k + 1) hdropn hcs
      have hne : sealChunks A cs (k + 1) (P.drop cs) ≠ [] := by
        intro hemp
        have := congrArg List.length hemp
        rw [ih1] at this
        simp at this
      rw [hchunks]
      refine ⟨?_, ?_, ?_, ?_⟩
      · simp only [List.length_cons, ih1, hdropn]
        omega
      · simp only [List.flatten_cons, List.length_append, ih2, hlen, hdropn,
          List.length_take]
        have : min cs P.length = cs := by omega
        rw [this]
        omega
      · intro f hf
        rw [List.dropLast_cons_of_ne_nil hne] at hf
        rcases List.mem_cons.mp hf with hf | hf
        · subst hf
          rw [hlen]
          simp only [List.length_take]
          omega
        · exact ih3 f hf
      · have hgl : ∀ (L : List (List Nat)) (d1 d2 : List Nat), L ≠ [] →
            L.getLastD d1 = L.getLastD d2 := by
          intro L d1 d2 hL
          rw [List.getLastD_eq_getLast?, List.getLastD_eq_getLast?]
          obtain ⟨x, hx⟩ := Option.isSome_iff_exists.mp (List.getLast?_isSome.mpr hL)
          rw [hx]
          rfl
        rw [List.getLastD_cons, hgl _ _ [] hne, ih4, hdropn, ← hmod]

theorem encryptBody_eq (A : AEAD) (cs : Nat) (P : List Nat)
    (hcs : 0 < cs) (hk : P.length / cs + 1 < 256 ^ 12) :
    encryptBody A cs P = ((sealChunks A cs 0 P).flatten, none) := by
  obtain ⟨w1, s1, hw, hc⟩ :=
    write_close_spec A P.length P (P.length + 1) 0 cs [] 0 rfl hcs (by omega) (by omega)
  have hmk : mkWriter cs = { chunkSize := cs, nonce := nonceB 0, buff := [], err := none } := by
    rw [mkWriter, ← nonceB_zero]
  unfold encryptBody writeW
  rw [hmk]
  simp only [hw, hc]
  simp

/-! ### C2: container length and framing -/

/-- C2. Container length and framing: for every valid normalized
parameters and every plaintext `P`, the encryptor emits exactly
`len(P)/chunk_size + 1` frames; every non-terminal frame is exactly
`chunk_size + 16` bytes (sealing exactly `chunk_size` plaintext bytes) and
the terminal frame is `len(P) % chunk_size + 16` bytes, emitted even when
it seals zero plaintext bytes; the container length is
`len(header) + (len(P)/chunk_size + 1)*16 + len(P)`.  The AEAD is assumed
to add exactly a 16-byte tag (`hA`), and the chunk count must not
exhaust the 96-bit nonce space (`hcnt`; guaranteed in Go, where
`len(P) ≤ 2^63`). -/
theorem container_framing_length (A : AEAD)
    (hA : ∀ n p, (A.Seal n p).length = p.length + 16)
    (p q : Params) (hq : check p = .ok q) (P : List Nat)
    (hcnt : P.length / q.ChunkSize.toNat + 1 < 256 ^ 12) :
    marshalHeader p = .ok (headerBytes q) ∧
    (encryptBody A q.ChunkSize.toNat P).2 = none ∧
    (encryptBody A q.ChunkSize.toNat P).1 = (sealChunks A q.ChunkSize.toNat 0 P).flatten ∧
    (sealChunks A q.ChunkSize.toNat 0 P).length = P.length / q.ChunkSize.toNat + 1 ∧
    (∀ f ∈ (sealChunks A q.ChunkSize.toNat 0 P).dropLast, f.length = q.ChunkSize.toNat + 16) ∧
    ((sealChunks A q.ChunkSize.toNat 0 P).getLastD []).length =
      P.length % q.ChunkSize.toNat + 16 ∧
    (headerBytes q ++ (encryptBody A q.ChunkSize.toNat P).1).length =
      (headerBytes q).length + (P.length / q.ChunkSize.toNat + 1) * 16 + P.length := by
  have hcpos : 0 < q.ChunkSize := (check_ok_fields p q hq).2.2.2.2.2.2.2.2.2
  have hcs : 0 < q.ChunkSize.toNat := by omega
  have henc := encryptBody_eq A q.ChunkSize.toNat P hcs hcnt
  obtain ⟨h1, h2, h3, h4⟩ :=
    sealChunks_stats A hA P.length P q.ChunkSize.toNat 0 rfl hcs
  refine ⟨?_, ?_, ?_, h1, h3, h4, ?_⟩
  · simp [marshalHeader, hq, Except.bind]
  · rw [henc]
  · rw [henc]
  · rw [henc]
    simp only [List.length_append, h2]
    ring

def paramsC2 : Params :=
  { ArgonVersion := 0, ArgonType := [], SaltSize := 0, Salt := none,
    ArgonTime := 0, ArgonMemory := 0, ArgonThreads := 0, ChunkSize := 2 }

def paramsC2q : Params :=
  { ArgonType := argonTypeStr, ArgonVersion := 19, SaltSize := 16, Salt := none,
    ArgonTime := 1, ArgonMemory := 2097152, ArgonThreads := 4, ChunkSize := 2 }

theorem container_framing_length_witness :
    (headerBytes paramsC2q ++ (encryptBody toyAead paramsC2q.ChunkSize.toNat [1, 2, 3, 4, 5]).1).length =
      (headerBytes paramsC2q).length +
        ([1, 2, 3, 4, 5].length / paramsC2q.ChunkSize.toNat + 1) * 16 + [1, 2, 3, 4, 5].length :=
  (container_framing_length toyAead toyAead_len paramsC2 paramsC2q (by decide) [1, 2, 3, 4, 5]
    (by decide)).2.2.2.2.2.2

/-! ### The decryptor on a clean run -/

theorem srcReadN_exact (s : Src) (n : Nat) (h : n ≤ s.data.length) :
    srcReadN s n = (s.data.take n, { s with data := s.data.drop n }, none) := by
  simp [srcReadN, h]

theorem srcReadN_short (s : Src) (n : Nat) (h : s.data.length < n) (hf : s.failTail = none) :
    srcReadN s n = (s.data, { s with data := [] }, some Err.eof) := by
  have : ¬(n ≤ s.data.length) := by omega
  simp [srcReadN, this, hf]

theorem readChunkW_full (A : AEAD) (r : GoReader) (s : Src) (k : Nat) (c0 rest : List Nat)
    (hA : ∀ n p, (A.Seal n p).length = p.length + 16)
    (hrt : ∀ n p, A.Open n (A.Seal n p) = some p)
    (hn : r.nonce = nonceB k) (hd : s.data = A.Seal (nonceB k) c0 ++ rest)
    (hc0 : c0.length = r.chunkSize) (hf : s.failTail = none) (hk : k + 1 < 256 ^ 12) :
    readChunkW A r s =
      (false, none, { r with buff := c0, nonce := nonceB (k + 1) },
       { s with data := rest }) := by
  have hframe : (A.Seal (nonceB k) c0).length = r.chunkSize + 16 := by
    rw [hA, hc0]
  have hdlen : r.chunkSize + 16 ≤ s.data.length := by
    rw [hd]
    simp [hframe]
  have htake : s.data.take (r.chunkSize + 16) = A.Seal (nonceB k) c0 := by
    rw [hd, ← hframe, List.take_left]
  have hdrop : s.data.drop (r.chunkSize + 16) = rest := by
    rw [hd, ← hframe, List.drop_left]
  unfold readChunkW
  simp only [srcReadN_exact s _ hdlen]
  simp only [htake, hdrop]
  unfold readChunkW.openAndInc
  rw [hn, hrt]
  simp only [incNonce_nonceB_no_overflow k hk]
  have hlt : ¬((A.Seal (nonceB k) c0).length < r.chunkSize + 16) := by
    rw [hframe]
    omega
  simp [hlt]

theorem readChunkW_terminal (A : AEAD) (r : GoReader) (s : Src) (k : Nat) (c0 : List Nat)
    (hA : ∀ n p, (A.Seal n p).length = p.length + 16)
    (hrt : ∀ n p, A.Open n (A.Seal n p) = some p)
    (hn : r.nonce = nonceB k) (hd : s.data = A.Seal (nonceB k) c0)
    (hc0 : c0.length < r.chunkSize) (hf : s.failTail = none) (hk : k + 1 < 256 ^ 12) :
    readChunkW A r s =
      (true, none, { r with buff := c0, nonce := nonceB (k + 1) },
       { s with data := [] }) := by
  have hframe : (A.Seal (nonceB k) c0).length = c0.length + 16 := hA _ _
  have hdlen : s.data.length < r.chunkSize + 16 := by
    rw [hd, hframe]
    omega
  unfold readChunkW
  simp only [srcReadN_short s _ hdlen hf]
  simp only [hd]
  unfold readChunkW.openAndInc
  rw [hn, hrt]
  simp only [incNonce_nonceB_no_overflow k hk]
  simp

theorem readLoop_step_eof (A : AEAD) (fuel : Nat) (r : GoReader) (s : Src) (rem : Nat)
    (acc : List Nat) (h0 : ¬rem = 0) (hb : r.buff = []) (hlc : r.lastChunk = true) :
    readLoop A (fuel + 1) r s rem acc =
      ((if acc = [] then [] else acc, if acc = [] then some Err.eof else none),
       { r with err := some Err.eof }, s) := by
  rw [readLoop]
  simp only [if_neg h0, hb, if_pos rfl, hlc, if_true]
  by_cases hacc : acc = [] <;> simp [hacc]

theorem readLoop_step_chunk (A : AEAD) (fuel : Nat) (r r2 : GoReader) (s s2 : Src)
    (rem : Nat) (acc : List Nat) (last : Bool)
    (h0 : ¬rem = 0) (hb : r.buff = []) (hlc : r.lastChunk = false)
    (hrc : readChunkW A r s = (last, none, r2, s2)) :
    readLoop A (fuel + 1) r s rem acc =
      readLoop A fuel { r2 with lastChunk := last } s2 rem acc := by
  rw [readLoop]
  simp only [if_neg h0, hb, if_pos rfl, hlc, hrc]
  simp

theorem readLoop_step_copy (A : AEAD) (fuel : Nat) (r : GoReader) (s : Src) (rem : Nat)
    (acc : List Nat) (h0 : ¬rem = 0) (hb : ¬r.buff = []) :
    readLoop A (fuel + 1) r s rem acc =
      readLoop A fuel { r with buff := r.buff.drop (min r.buff.length rem) } s
        (rem - min r.buff.length rem) (acc ++ r.buff.take (min r.buff.length rem)) := by
  rw [readLoop]
  simp only [if_neg h0, if_neg hb]

set_option maxHeartbeats 1600000 in
theorem readLoop_spec (A : AEAD)
    (hA : ∀ n p, (A.Seal n p).length = p.length + 16)
    (hrt : ∀ n p, A.Open n (A.Seal n p) = some p) :
    ∀ (n : Nat) (P : List Nat) (fuel k cs rem : Nat) (acc : List Nat),
      P.length = n → 0 < cs → P.length < rem →
      2 * (P.length / cs) + 3 ≤ fuel →
      k + P.length / cs + 1 < 256 ^ 12 →
      readLoop A fuel
          { chunkSize := cs, nonce := nonceB k, buff := [], lastChunk := false, err := none }
          { data := (sealChunks A cs k P).flatten, failTail := none } rem acc =
        ((if acc ++ P = [] then [] else acc ++ P,
          if acc ++ P = [] then some Err.eof else none),
         { chunkSize := cs, nonce := nonceB (k + P.length / cs + 1), buff := [],
           lastChunk := true, err := some Err.eof },
         { data := [], failTail := none }) := by
  intro n
  induction n using Nat.strong_induction_on with
  | _ n ih =>
    intro P fuel k cs rem acc hn hcs hrem hfuel hk
    have hrem0 : ¬rem = 0 := by omega
    by_cases hsmall : P.length < cs
    · -- terminal frame
      have hdiv : P.length / cs = 0 := Nat.div_eq_of_lt hsmall
      rw [hdiv] at hk ⊢
      have hchunks : sealChunks A cs k P = [A.Seal (nonceB k) P] := by
        rw [sealChunks]
        simp [hsmall]
      obtain ⟨f1, rfl⟩ : ∃ f1, fuel = f1 + 1 := ⟨fuel - 1, by omega⟩
      have hrc : readChunkW A
          { chunkSize := cs, nonce := nonceB k, buff := [], lastChunk := false, err := none }
          { data := (sealChunks A cs k P).flatten, failTail := none } =
          (true, none,
           { chunkSize := cs, nonce := nonceB (k + 1), buff := P, lastChunk := false, err := none },
           { data := [], failTail := none }) := by
        rw [readChunkW_terminal A _ _ k P hA hrt rfl (by rw [hchunks]; simp) hsmall rfl (by omega)]
      rw [readLoop_step_chunk A f1 _ _ _ _ rem acc true hrem0 rfl rfl hrc]
      by_cases hP : P = []
      · subst hP
        obtain ⟨f2, rfl⟩ : ∃ f2, f1 = f2 + 1 := ⟨f1 - 1, by omega⟩
        rw [readLoop_step_eof A f2 _ _ rem acc hrem0 rfl rfl]
        by_cases hacc : acc = [] <;> simp [hacc]
      · obtain ⟨f2, rfl⟩ : ∃ f2, f1 = f2 + 1 := ⟨f1 - 1, by omega⟩
        obtain ⟨f3, rfl⟩ : ∃ f3, f2 = f3 + 1 := ⟨f2 - 1, by omega⟩
        rw [readLoop_step_copy A (f3 + 1) _ _ rem acc hrem0 hP]
        have hmin : min P.length rem = P.length := by omega
        simp only [hmin, List.take_length, List.drop_length]
        have hrem1 : ¬rem - P.length = 0 := by omega
        rw [readLoop_step_eof A f3 _ _ _ _ hrem1 rfl rfl]
    · -- full frame then recurse
      have hge : cs ≤ P.length := by omega
      have hdiv : P.length / cs = (P.length - cs) / cs + 1 := Nat.div_eq_sub_div hcs hge
      have hge1 : 1 ≤ P.length / cs := (Nat.one_le_div_iff hcs).mpr hge
      have hchunks : sealChunks A cs k P =
          A.Seal (nonceB k) (P.take cs) :: sealChunks A cs (k + 1) (P.drop cs) := by
        rw [sealChunks]
        have hcond : ¬(cs = 0 ∨ P.length < cs) := by omega
        simp only [if_neg hcond]
      have htlen : (P.take cs).length = cs := List.length_take_of_le hge
      have hdropn : (P.drop cs).length = P.length - cs := by simp
      obtain ⟨f1, rfl⟩ : ∃ f1, fuel = f1 + 1 := ⟨fuel - 1, by omega⟩
      obtain ⟨f2, rfl⟩ : ∃ f2, f1 = f2 + 1 := ⟨f1 - 1, by omega⟩
      have hrc : readChunkW A
          { chunkSize := cs, nonce := nonceB k, buff := [], lastChunk := false, err := none }
          { data := (sealChunks A cs k P).flatten, failTail := none } =
          (false, none,
           { chunkSize := cs, nonce := nonceB (k + 1), buff := P.take cs, lastChunk := false,
             err := none },
           { data := (sealChunks A cs (k + 1) (P.drop cs)).flatten, failTail := none }) := by
        rw [readChunkW_full A _ _ k (P.take cs) ((sealChunks A cs (k + 1) (P.drop cs)).flatten)
          hA hrt rfl (by rw [hchunks]; simp) htlen rfl (by omega)]
      rw [readLoop_step_chunk A (f2 + 1) _ _ _ _ rem acc false hrem0 rfl rfl hrc]
      have hbne : ¬(P.take cs = ([] : List Nat)) := by
        intro hemp
        have := congrArg List.length hemp
        rw [htlen] at this
        simp at this
        omega
      rw [readLoop_step_copy A f2 _ _ rem acc hrem0 hbne]
      have hmin : min (P.take cs).length rem = cs := by
        rw [htlen]
        omega
      have hdropb : (P.take cs).drop cs = ([] : List Nat) := by
        apply List.drop_eq_nil_of_le
        rw [htlen]
      have htakeb : (P.take cs).take cs = P.take cs := by
        rw [List.take_take]
        simp
      simp only [hmin, hdropb, htakeb]
      have hsub : (P.length - cs) / cs = P.length / cs - 1 := by omega
      have ihres := ih (P.length - cs) (by omega) (P.drop cs) f2 (k + 1) cs (rem - cs)
        (acc ++ P.take cs) hdropn hcs (by rw [hdropn]; omega)
        (by rw [hdropn, hsub]; omega) (by rw [hdropn, hsub]; omega)
      rw [ihres]
      have hjoin : (acc ++ P.take cs) ++ P.drop cs = acc ++ P := by
        rw [List.append_assoc, List.take_append_drop]
      rw [hjoin]
      have hnonce : k + 1 + (P.drop cs).length / cs + 1 = k + P.length / cs + 1 := by
        rw [hdropn, hsub]
        omega
      try rw [hnonce]

theorem decryptBody_eq (A : AEAD)
    (hA : ∀ n p, (A.Seal n p).length = p.length + 16)
    (hrt : ∀ n p, A.Open n (A.Seal n p) = some p)
    (cs : Nat) (P : List Nat) (hcs : 0 < cs) (hk : P.length / cs + 1 < 256 ^ 12) :
    decryptBody A cs ((sealChunks A cs 0 P).flatten) = (P, Err.eof) := by
  have hstats := sealChunks_stats A hA P.length P cs 0 rfl hcs
  have hblen : (sealChunks A cs 0 P).flatten.length = P.length + 16 * (P.length / cs + 1) :=
    hstats.2.1
  have hdivle : P.length / cs ≤ P.length := Nat.div_le_self _ _
  have hmk : mkReader cs =
      { chunkSize := cs, nonce := nonceB 0, buff := [], lastChunk := false, err := none } := by
    rw [mkReader, ← nonceB_zero]
  have hloop := readLoop_spec A hA hrt P.length P
    ((sealChunks A cs 0 P).flatten.length + ((sealChunks A cs 0 P).flatten.length + 1) + 2)
    0 cs ((sealChunks A cs 0 P).flatten.length + 1) [] rfl hcs (by omega) (by omega) (by omega)
  have hreadW : readW A
      { chunkSize := cs, nonce := nonceB 0, buff := [], lastChunk := false, err := none }
      { data := (sealChunks A cs 0 P).flatten, failTail := none }
      ((sealChunks A cs 0 P).flatten.length + 1) =
      ((if P = [] then [] else P, if P = [] then some Err.eof else none),
       { chunkSize := cs, nonce := nonceB (0 + P.length / cs + 1), buff := [],
         lastChunk := true, err := some Err.eof },
       { data := [], failTail := none }) := by
    unfold readW
    simp only [List.nil_append] at hloop
    exact hloop
  unfold decryptBody
  rw [hmk]
  by_cases hP : P = []
  · subst hP
    rw [drain, hreadW]
    simp
  · rw [drain, hreadW]
    simp only [if_neg hP]
    rw [drain]
    unfold readW
    simp

/-! ### C1: the round trip -/

/-- C1. Round-trip: for every valid normalized parameters and every
plaintext byte sequence `P` (including the empty sequence), writing `P`
through the encryptor (`Writer.Write`) and calling `Close`, then reading
the produced bytes back through the decryptor (`Reader.Read`) with the
same key and parameters, yields exactly `P` followed by the `EndOfStream`
(`io.EOF`) outcome.  The same keyed AEAD instance (the same key) is used
on both sides, assumed to satisfy the `cipher.AEAD` contract (`hA`,
`hrt`); the chunk count may not exhaust the 96-bit nonce space (`hcnt`,
guaranteed in Go where `len(P) ≤ 2^63`). -/
theorem writer_reader_round_trip (A : AEAD)
    (hA : ∀ n p, (A.Seal n p).length = p.length + 16)
    (hrt : ∀ n p, A.Open n (A.Seal n p) = some p)
    (p q : Params) (hq : check p = .ok q) (P : List Nat)
    (hcnt : P.length / q.ChunkSize.toNat + 1 < 256 ^ 12) :
    (encryptBody A q.ChunkSize.toNat P).2 = none ∧
    decryptBody A q.ChunkSize.toNat (encryptBody A q.ChunkSize.toNat P).1 = (P, Err.eof) := by
  have hcpos : 0 < q.ChunkSize := (check_ok_fields p q hq).2.2.2.2.2.2.2.2.2
  have hcs : 0 < q.ChunkSize.toNat := by omega
  have henc := encryptBody_eq A q.ChunkSize.toNat P hcs hcnt
  rw [henc]
  exact ⟨rfl, decryptBody_eq A hA hrt q.ChunkSize.toNat P hcs hcnt⟩

/-- Witness for C1: a five-byte plaintext over two-byte chunks with the
stand-in AEAD round-trips. -/
theorem writer_reader_round_trip_witness :
    decryptBody toyAead paramsC2q.ChunkSize.toNat
        (encryptBody toyAead paramsC2q.ChunkSize.toNat [5, 6, 7, 8, 9]).1 =
      ([5, 6, 7, 8, 9], Err.eof) :=
  (writer_reader_round_trip toyAead toyAead_len toyAead_roundtrip paramsC2 paramsC2q
    (by decide) [5, 6, 7, 8, 9] (by decide)).2

/-! ### C7: key derivation -/

def keySize : Nat := 32

/-- `Key` of `crypto.go`: run `Check`, generate and install a salt when
none is present (`random(params.SaltSize)` over the checked record), and
derive the 32-byte key with `argon2.IDKey`.  The two external primitives
— `crypto/rand` and `golang.org/x/crypto/argon2` — are parameters
(`rng`, `argon`); Go mutates `*Params` in place, so the updated record is
returned alongside the key (the `nil`-pointer guard has no counterpart
here, records always being present). -/
def Key (argon : List Nat → List Nat → Nat → Nat → Nat → Nat → List Nat)
    (rng : Nat → List Nat) (password : List Nat) (p : Params) :
    Except Err (List Nat × Params) :=
  (check p).bind fun q =>
  let q2 := match q.Salt with
    | none => { q with Salt := some (rng q.SaltSize) }
    | some _ => q
  Except.ok
    (argon password (q2.Salt.getD []) q2.ArgonTime q2.ArgonMemory q2.ArgonThreads keySize, q2)

/-- C7. Key derivation salt installation: for every password and every
checkable parameters value whose salt is empty (`nil`), `Key` generates a
salt of exactly `salt_size` bytes (under the `crypto/rand` contract
`hrng`), installs it into the parameters so the caller observes it, and
returns the 32-byte Argon2id key (under the `argon2.IDKey` contract
`hargon`) computed over the password, the installed salt, time, memory
and threads; when the salt is non-`nil` the supplied salt is used
unchanged. -/
theorem key_salt_installation
    (argon : List Nat → List Nat → Nat → Nat → Nat → Nat → List Nat)
    (rng : Nat → List Nat)
    (hrng : ∀ n, (rng n).length = n)
    (hargon : ∀ pw s t m th k, (argon pw s t m th k).length = k)
    (password : List Nat) (p q : Params) (hq : check p = .ok q) :
    (p.Salt = none →
      Key argon rng password p =
        .ok (argon password (rng q.SaltSize) q.ArgonTime q.ArgonMemory q.ArgonThreads 32,
             { q with Salt := some (rng q.SaltSize) }) ∧
      (rng q.SaltSize).length = q.SaltSize) ∧
    (∀ s, p.Salt = some s →
      Key argon rng password p =
        .ok (argon password s q.ArgonTime q.ArgonMemory q.ArgonThreads 32, q)) ∧
    (∀ k qq, Key argon rng password p = .ok (k, qq) → k.length = 32) := by
  have hsalt : q.Salt = p.Salt := (check_ok_fields p q hq).2.2.1
  refine ⟨?_, ?_, ?_⟩
  · intro hnone
    have hqnone : q.Salt = none := by rw [hsalt, hnone]
    constructor
    · unfold Key
      rw [hq]
      simp only [Except.bind, hqnone]
      simp [keySize]
    · exact hrng _
  · intro s hsome
    have hqsome : q.Salt = some s := by rw [hsalt, hsome]
    unfold Key
    rw [hq]
    simp only [Except.bind, hqsome]
    simp [keySize, hqsome]
  · intro k qq hkey
    unfold Key at hkey
    rw [hq] at hkey
    simp only [Except.bind] at hkey
    rcases hs : q.Salt with - | s <;> rw [hs] at hkey <;>
      simp only [Except.ok.injEq, Prod.mk.injEq] at hkey <;>
      rw [← hkey.1, hargon] <;> rfl

/-- Stand-ins for the two external primitives, used by the witness. -/
def toyArgon (password salt : List Nat) (t m th k : Nat) : List Nat :=
  List.replicate k 7

def toyRng (n : Nat) : List Nat := List.replicate n 9

/-- Witness for C7 with concrete stand-ins for Argon2id and the RNG. -/
theorem key_salt_installation_witness :
    Key toyArgon toyRng [1, 2] paramsC2 =
      .ok (toyArgon [1, 2] (toyRng paramsC2q.SaltSize) paramsC2q.ArgonTime
             paramsC2q.ArgonMemory paramsC2q.ArgonThreads 32,
           { paramsC2q with Salt := some (toyRng paramsC2q.SaltSize) }) ∧
    (toyRng paramsC2q.SaltSize).length = paramsC2q.SaltSize :=
  (key_salt_installation toyArgon toyRng (fun n => by simp [toyRng])
    (fun pw s t m th k => by simp [toyArgon]) [1, 2] paramsC2 paramsC2q (by decide)).1 rfl

/-! ### C8, C9, C10: terminal errors and latching -/

theorem writeLoop_err_latch (A : AEAD) :
    ∀ (fuel : Nat) (w w1 : GoWriter) (s s1 : Snk) (p : List Nat) (e : Err),
      writeLoop A fuel w s p = (some e, w1, s1) → w1.err = some e := by
  intro fuel
  induction fuel with
  | zero =>
    intro w w1 s s1 p e h
    simp [writeLoop] at h
  | succ f ihf =>
    intro w w1 s s1 p e h
    rw [writeLoop] at h
    by_cases hp : p = []
    · simp [hp] at h
    · simp only [if_neg hp] at h
      split at h
      · split at h
        · simp only [Prod.mk.injEq] at h
          rw [← h.2.1]
          exact h.1 ▸ rfl
        · exact ihf _ _ _ _ _ _ h
      · exact ihf _ _ _ _ _ _ h

theorem writeW_err_latch (A : AEAD) (w w1 : GoWriter) (s s1 : Snk) (p : List Nat)
    (n : Nat) (e : Err) (h : writeW A w s p = ((n, some e), w1, s1)) :
    w1.err = some e := by
  unfold writeW at h
  split at h
  · simp only [Prod.mk.injEq] at h
    rename_i e2 he2
    rw [← h.2.1, he2, h.1.2]
  · split at h <;> simp only [Prod.mk.injEq] at h
    · rename_i heq
      rw [← h.2.1]
      rw [h.1.2] at heq
      exact writeLoop_err_latch A _ _ _ _ _ _ _ heq
    · exact absurd h.1.2 (by simp)

theorem closeW_err_latch (A : AEAD) (w w1 : GoWriter) (s s1 : Snk) (e : Err)
    (h : closeW A w s = (some e, w1, s1)) : w1.err = some e := by
  unfold closeW at h
  split at h
  · simp only [Prod.mk.injEq] at h
    rename_i e2 he2
    rw [← h.2.1, he2, h.1]
  · split at h <;> simp only [Prod.mk.injEq] at h
    · rw [← h.2.1]
      exact h.1 ▸ rfl
    · exact absurd h.1 (by simp)

theorem closeW_ok_closed (A : AEAD) (w w1 : GoWriter) (s s1 : Snk)
    (h : closeW A w s = (none, w1, s1)) : w1.err = some Err.closedWriter := by
  unfold closeW at h
  split at h
  · simp only [Prod.mk.injEq] at h
    exact absurd h.1 (by simp)
  · split at h <;> simp only [Prod.mk.injEq] at h
    · exact absurd h.1 (by simp)
    · rw [← h.2.1]

theorem readLoop_err_latch (A : AEAD) :
    ∀ (fuel : Nat) (r r1 : GoReader) (s s1 : Src) (rem : Nat) (acc out : List Nat) (e : Err),
      readLoop A fuel r s rem acc = ((out, some e), r1, s1) → r1.err = some e := by
  intro fuel
  induction fuel with
  | zero =>
    intro r r1 s s1 rem acc out e h
    simp [readLoop] at h
  | succ f ihf =>
    intro r r1 s s1 rem acc out e h
    rw [readLoop] at h
    by_cases h0 : rem = 0
    · simp [h0] at h
    · simp only [if_neg h0] at h
      split at h
      · split at h
        · split at h <;> simp only [Prod.mk.injEq] at h
          · rw [← h.2.1]
            exact h.1.2 ▸ rfl
          · exact absurd h.1.2 (by simp)
        · split at h
          · simp only [Prod.mk.injEq] at h
            rw [← h.2.1]
            exact h.1.2 ▸ rfl
          · exact ihf _ _ _ _ _ _ _ _ h
      · exact ihf _ _ _ _ _ _ _ _ h

theorem readW_err_latch (A : AEAD) (r r1 : GoReader) (s s1 : Src) (b : Nat)
    (out : List Nat) (e : Err) (h : readW A r s b = ((out, some e), r1, s1)) :
    r1.err = some e := by
  unfold readW at h
  split at h
  · simp only [Prod.mk.injEq] at h
    rename_i e2 he2
    rw [← h.2.1, he2, h.1.2]
  · exact readLoop_err_latch A _ _ _ _ _ _ _ _ _ h

theorem writeW_latched (A : AEAD) (w : GoWriter) (s : Snk) (p : List Nat) (e : Err)
    (he : w.err = some e) : writeW A w s p = ((0, some e), w, s) := by
  unfold writeW
  rw [he]

theorem closeW_latched (A : AEAD) (w : GoWriter) (s : Snk) (e : Err)
    (he : w.err = some e) : closeW A w s = (some e, w, s) := by
  unfold closeW
  rw [he]

theorem readW_latched (A : AEAD) (r : GoReader) (s : Src) (b : Nat) (e : Err)
    (he : r.err = some e) : readW A r s b = (([], some e), r, s) := by
  unfold readW
  rw [he]

/-- C8. Closed/finished terminal behavior: after a successful `Close`,
every subsequent `Write` and every subsequent `Close` on the encryptor
fails with the `ClosedWriter` kind (returning count `0` and touching
neither the buffer nor the sink); and once a `Read` has signalled
`EndOfStream` (`io.EOF`), every subsequent `Read` returns zero bytes and
`EndOfStream` again without touching the source. -/
theorem closed_writer_and_eof_terminal (A : AEAD) :
    (∀ (w w1 : GoWriter) (s s1 : Snk), closeW A w s = (none, w1, s1) →
      (∀ (s2 : Snk) (p : List Nat), writeW A w1 s2 p = ((0, some Err.closedWriter), w1, s2)) ∧
      (∀ s2 : Snk, closeW A w1 s2 = (some Err.closedWriter, w1, s2))) ∧
    (∀ (r r1 : GoReader) (s s1 : Src) (b : Nat) (out : List Nat),
      readW A r s b = ((out, some Err.eof), r1, s1) →
      ∀ (s2 : Src) (b2 : Nat), readW A r1 s2 b2 = (([], some Err.eof), r1, s2)) := by
  constructor
  · intro w w1 s s1 h
    have h1 := closeW_ok_closed A w w1 s s1 h
    exact ⟨fun s2 p => writeW_latched A w1 s2 p _ h1, fun s2 => closeW_latched A w1 s2 _ h1⟩
  · intro r r1 s s1 b out h s2 b2
    exact readW_latched A r1 s2 b2 _ (readW_err_latch A r r1 s s1 b out _ h)

def wClosed2 : GoWriter :=
  { chunkSize := 2, nonce := [0, 0, 0, 0, 0, 0, 0, 0, 0, 0, 0, 1], buff := [],
    err := some Err.closedWriter }

def rEof2 : GoReader :=
  { chunkSize := 2, nonce := [0, 0, 0, 0, 0, 0, 0, 0, 0, 0, 0, 1], buff := [],
    lastChunk := true, err := some Err.eof }

/-- Witness for C8: a concrete closed writer and a drained reader. -/
theorem closed_writer_and_eof_terminal_witness :
    writeW toyAead wClosed2 { data := [], calls := 0, failAt := none } [7] =
      ((0, some Err.closedWriter), wClosed2, { data := [], calls := 0, failAt := none }) ∧
    readW toyAead rEof2 { data := [], failTail := none } 3 =
      (([], some Err.eof), rEof2, { data := [], failTail := none }) :=
  ⟨((closed_writer_and_eof_terminal toyAead).1 (mkWriter 2) wClosed2
      { data := [], calls := 0, failAt := none }
      { data := (encryptBody toyAead 2 []).1, calls := 1, failAt := none }
      (by decide)).1 _ [7],
   (closed_writer_and_eof_terminal toyAead).2 (mkReader 2) rEof2
      { data := (encryptBody toyAead 2 []).1, failTail := none }
      { data := [], failTail := none } 3 [] (by decide) _ 3⟩

/-- C9. Error latching: whenever `Write`, `Close` or `Read` fails, the
error is latched into the instance's terminal slot (`err`), and once an
error is latched every subsequent operation on the same instance returns
that same error, with the sink/source returned untouched (no further
I/O). -/
theorem error_latching (A : AEAD) :
    (∀ (w w1 : GoWriter) (s s1 : Snk) (p : List Nat) (n : Nat) (e : Err),
      writeW A w s p = ((n, some e), w1, s1) → w1.err = some e) ∧
    (∀ (w w1 : GoWriter) (s s1 : Snk) (e : Err),
      closeW A w s = (some e, w1, s1) → w1.err = some e) ∧
    (∀ (r r1 : GoReader) (s s1 : Src) (b : Nat) (out : List Nat) (e : Err),
      readW A r s b = ((out, some e), r1, s1) → r1.err = some e) ∧
    (∀ (w : GoWriter) (s : Snk) (p : List Nat) (e : Err), w.err = some e →
      writeW A w s p = ((0, some e), w, s) ∧ closeW A w s = (some e, w, s)) ∧
    (∀ (r : GoReader) (s : Src) (b : Nat) (e : Err), r.err = some e →
      readW A r s b = (([], some e), r, s)) :=
  ⟨fun w w1 s s1 p n e h => writeW_err_latch A w w1 s s1 p n e h,
   fun w w1 s s1 e h => closeW_err_latch A w w1 s s1 e h,
   fun r r1 s s1 b out e h => readW_err_latch A r r1 s s1 b out e h,
   fun w s p e he => ⟨writeW_latched A w s p e he, closeW_latched A w s e he⟩,
   fun r s b e he => readW_latched A r s b e he⟩

def wFailed : GoWriter :=
  { chunkSize := 2, nonce := [0, 0, 0, 0, 0, 0, 0, 0, 0, 0, 0, 1], buff := [3, 4],
    err := some (Err.ioErr 0) }

/-- Witness for C9 on a writer that latched a sink error. -/
theorem error_latching_witness :
    writeW toyAead wFailed { data := [], calls := 5, failAt := none } [9] =
      ((0, some (Err.ioErr 0)), wFailed, { data := [], calls := 5, failAt := none }) ∧
    closeW toyAead wFailed { data := [], calls := 5, failAt := none } =
      (some (Err.ioErr 0), wFailed, { data := [], calls := 5, failAt := none }) :=
  (error_latching toyAead).2.2.2.1 wFailed { data := [], calls := 5, failAt := none } [9]
    (Err.ioErr 0) (by decide)

/-- C10. When `Writer.Write` fails (because an intermediate flush hit a
sink error or nonce overflow, or because an error was latched), it
returns a byte count of `0` together with the error — never partial
progress. -/
theorem write_error_zero_count (A : AEAD) (w : GoWriter) (s : Snk) (p : List Nat)
    (h : (writeW A w s p).1.2 ≠ none) : (writeW A w s p).1.1 = 0 := by
  unfold writeW at h ⊢
  split at h
  · rfl
  · split
    · rfl
    · rename_i heq
      rw [heq] at h
      simp at h

/-- Witness for C10: the sink fails on the second frame; the first
18-byte frame was already written, yet the returned count is `0`. -/
theorem write_error_zero_count_witness :
    (writeW toyAead (mkWriter 2) { data := [], calls := 0, failAt := some 1 }
        [1, 2, 3, 4, 5]).1.1 = 0 ∧
    (writeW toyAead (mkWriter 2) { data := [], calls := 0, failAt := some 1 }
        [1, 2, 3, 4, 5]).2.2.data.length = 18 :=
  ⟨write_error_zero_count toyAead (mkWriter 2)
      { data := [], calls := 0, failAt := some 1 } [1, 2, 3, 4, 5] (by decide),
   by decide⟩

end Encdec
